import Mathlib

/-!
Verification of the room shared-air analysis tool (src/app.py).

The file shallowly embeds the data pipeline of the Streamlit application:
per-room resampled sensor frames, the per-channel delta columns, the pairwise
inner join with finiteness filtering, Pearson correlation cells, the Granger
independence cells with the self-pair sentinel, the scoring-window date
precedence, and the minimum-room-count gate of the Compare button.

Numeric modelling choices: sensor values and all intermediate statistics are
rationals; the final Pearson correlation value lives in the reals because it
divides by a square root.  Timestamps are naturals.  A null (polars) cell is
an Option that is none.  NaN cells produced by numpy (zero-variance
correlations) are modelled as none as well, since in exact arithmetic the
only source of NaN in np.corrcoef is the 0/0 of a zero-variance column.
-/

set_option maxHeartbeats 1000000

/-- The four sensor channels of the application. -/
inductive Channel
  | co2 | o2 | temp | c2h4
deriving DecidableEq, Repr

/-- The eight numeric columns of a resampled room frame: the four raw
channels and their first-difference (delta) columns. -/
inductive Col
  | co2 | o2 | temp | c2h4 | co2d | o2d | tempd | c2h4d
deriving DecidableEq, Repr

/-- The four raw columns, as opposed to the delta columns. -/
def Col.isRaw : Col → Bool
  | .co2 | .o2 | .temp | .c2h4 => true
  | _ => false

/-- A row of a resampled room frame before filtering: each of the eight
columns may be null (an empty bucket, or the first delta row). -/
structure ORow where
  co2 : Option ℚ
  o2 : Option ℚ
  temp : Option ℚ
  c2h4 : Option ℚ
  co2d : Option ℚ
  o2d : Option ℚ
  tempd : Option ℚ
  c2h4d : Option ℚ
deriving DecidableEq, Repr

/-- A fully populated row, as obtained after the is_finite filters. -/
structure Row where
  co2 : ℚ
  o2 : ℚ
  temp : ℚ
  c2h4 : ℚ
  co2d : ℚ
  o2d : ℚ
  tempd : ℚ
  c2h4d : ℚ
deriving DecidableEq, Repr

/-- Column projection out of a populated row. -/
def Row.get (r : Row) : Col → ℚ
  | .co2 => r.co2
  | .o2 => r.o2
  | .temp => r.temp
  | .c2h4 => r.c2h4
  | .co2d => r.co2d
  | .o2d => r.o2d
  | .tempd => r.tempd
  | .c2h4d => r.c2h4d

/-- Does the row hold a finite (non-null) value in all eight columns?  This is
the conjunction of the eight is_finite filters applied in run() before any
pair is formed. -/
def ORow.allFinite (r : ORow) : Bool :=
  r.co2.isSome && r.o2.isSome && r.temp.isSome && r.c2h4.isSome &&
  r.co2d.isSome && r.o2d.isSome && r.tempd.isSome && r.c2h4d.isSome

/-- Collapse a row all of whose cells are known to be present. -/
def ORow.force (r : ORow) : Row :=
  ⟨r.co2.getD 0, r.o2.getD 0, r.temp.getD 0, r.c2h4.getD 0,
   r.co2d.getD 0, r.o2d.getD 0, r.tempd.getD 0, r.c2h4d.getD 0⟩

/-- A resampled room frame: time-keyed rows, possibly with null cells. -/
abbrev OFrame := List (ℕ × ORow)

/-- A filtered room frame: time-keyed fully populated rows. -/
abbrev Frame := List (ℕ × Row)

/-- The filter step of run(): keep only the rows whose eight columns are all
finite, preserving order. -/
def filterFinite (A : OFrame) : Frame :=
  (A.filter (fun tr => tr.2.allFinite)).map (fun tr => (tr.1, tr.2.force))

/-- First matching row for a timestamp, as used by the inner join. -/
def lookupRow (t : ℕ) : Frame → Option Row
  | [] => none
  | (u, r) :: rest => if u = t then some r else lookupRow t rest

/-- The inner join on the time column performed for every ordered room pair:
each left row is paired with the matching right row when one exists.  The
subsequent fill_nan(None).drop_nulls() of the source is a no-op here because
both sides were already filtered to fully finite rows. -/
def joinOn (A B : Frame) : List (ℕ × Row × Row) :=
  A.filterMap (fun tr => (lookupRow tr.1 B).map (fun rb => (tr.1, tr.2, rb)))

/-- The two sides of one column of a joined pair frame. -/
def colPairs (c : Col) (J : List (ℕ × Row × Row)) : List (ℚ × ℚ) :=
  J.map (fun x => (x.2.1.get c, x.2.2.get c))

/-- Python round(q, 3) in exact arithmetic: scale by 1000, round to an
integer, scale back.  (Python rounds ties to even on binary floats; the round
function here rounds ties up, a modelling choice that is immaterial for the
properties proved, which only ever round values whose third decimal is
exact.) -/
def round3Q (q : ℚ) : ℚ := ((round (q * 1000) : ℤ) : ℚ) / 1000

/-- Subtraction of two possibly-null cells, null propagating: this is polars
column subtraction as performed by diff(). -/
def subOpt (cur prev : Option ℚ) : Option ℚ :=
  Option.map₂ (fun a b => a - b) cur prev

/-- The polars diff() of a column: the first entry becomes null and every
later entry is the difference between the value and its predecessor. -/
def diffCol : List (Option ℚ) → List (Option ℚ)
  | [] => []
  | x :: xs => none :: List.zipWith subOpt xs (x :: xs)

/-- The delta column added by with_columns in run(): diff() of the bucketed
(already aggregated) channel column, then round(3) on each present cell. -/
def deltaColumn (col : List (Option ℚ)) : List (Option ℚ) :=
  (diffCol col).map (Option.map round3Q)

/-- The effective scoring start date computed in run(): the override when it
is present, otherwise the raw scoring start date (both possibly absent). -/
def effectiveStartDate (startOverride rawStart : Option ℕ) : Option ℕ :=
  match startOverride with
  | some s => some s
  | none => rawStart

/-- The effective scoring end date actually used to fetch room data: run()
takes the override when present, otherwise the opened date when present,
otherwise the raw scoring end date; get_room_data then substitutes the
current UTC date when the result is still absent. -/
def effectiveEndDate (endOverride openedDate rawEnd : Option ℕ) (now : ℕ) : ℕ :=
  match endOverride with
  | some e => e
  | none =>
    match openedDate with
    | some o => o
    | none =>
      match rawEnd with
      | some e => e
      | none => now

/-- Modelled from the claim wording of C8 (spec section 6): end-date
precedence explicit override, then opened timestamp, then raw scoring end,
then raw scoring start.  Kept separate so it can be compared with the
behaviour the code implements. -/
def claimedEffectiveEndDate (endOverride openedDate rawEnd : Option ℕ)
    (rawStart : ℕ) : ℕ :=
  match endOverride with
  | some e => e
  | none =>
    match openedDate with
    | some o => o
    | none =>
      match rawEnd with
      | some e => e
      | none => rawStart

/- ### Basic lemmas about the delta column -/

theorem zipWith_subOpt_const (v : ℚ) :
    ∀ n : ℕ, List.zipWith subOpt (List.replicate n (some v))
      (some v :: List.replicate n (some v)) = List.replicate n (some 0) := by
  intro n
  induction n with
  | zero => rfl
  | succ n ih =>
    have hrep : List.replicate (n + 1) (some v) = some v :: List.replicate n (some v) :=
      List.replicate_succ _ _
    calc List.zipWith subOpt (List.replicate (n + 1) (some v))
          (some v :: List.replicate (n + 1) (some v))
        = subOpt (some v) (some v) ::
            List.zipWith subOpt (List.replicate n (some v))
              (some v :: List.replicate n (some v)) := by
          rw [hrep]
          rfl
      _ = List.replicate (n + 1) (some 0) := by
          rw [ih, List.replicate_succ]
          simp [subOpt, Option.map₂]

theorem round3Q_zero : round3Q 0 = 0 := by
  norm_num [round3Q]

/- ### Lemmas about joins -/

theorem lookupRow_eq_some_iff {B : Frame} (hB : (B.map Prod.fst).Nodup)
    {t : ℕ} {r : Row} : lookupRow t B = some r ↔ (t, r) ∈ B := by
  induction B with
  | nil => simp [lookupRow]
  | cons b rest ih =>
    obtain ⟨u, rb⟩ := b
    simp only [List.map_cons, List.nodup_cons] at hB
    by_cases h : u = t
    · subst h
      simp only [lookupRow, eq_self_iff_true, if_true, Option.some_inj,
        List.mem_cons, Prod.mk.injEq, true_and]
      constructor
      · intro h1
        exact Or.inl h1.symm
      · rintro (h1 | h1)
        · exact h1.symm
        · exact absurd (List.mem_map_of_mem Prod.fst h1) hB.1
    · simp only [lookupRow, if_neg h, ih hB.2, List.mem_cons]
      constructor
      · exact Or.inr
      · rintro (h1 | h1)
        · rw [Prod.mk.injEq] at h1
          exact absurd h1.1.symm h
        · exact h1

theorem mem_joinOn_iff {A B : Frame} (hB : (B.map Prod.fst).Nodup)
    {t : ℕ} {ra rb : Row} :
    (t, ra, rb) ∈ joinOn A B ↔ (t, ra) ∈ A ∧ (t, rb) ∈ B := by
  simp only [joinOn, List.mem_filterMap]
  constructor
  · rintro ⟨⟨u, r⟩, hmem, heq⟩
    simp only [Option.map_eq_some'] at heq
    obtain ⟨r2, hl, heq⟩ := heq
    rw [Prod.mk.injEq, Prod.mk.injEq] at heq
    obtain ⟨h1, h2, h3⟩ := heq
    subst h1; subst h2; subst h3
    exact ⟨hmem, (lookupRow_eq_some_iff hB).mp hl⟩
  · rintro ⟨h1, h2⟩
    refine ⟨(t, ra), h1, ?_⟩
    rw [(lookupRow_eq_some_iff hB).mpr h2]
    rfl

theorem joinOn_keys_sublist (A B : Frame) :
    ((joinOn A B).map Prod.fst).Sublist (A.map Prod.fst) := by
  induction A with
  | nil => simp [joinOn]
  | cons a rest ih =>
    obtain ⟨t, ra⟩ := a
    cases h : lookupRow t B with
    | none =>
      have h2 : joinOn ((t, ra) :: rest) B = joinOn rest B := by
        simp [joinOn, List.filterMap_cons, h]
      rw [h2, List.map_cons]
      exact (ih).cons _
    | some rb =>
      have h2 : joinOn ((t, ra) :: rest) B = (t, ra, rb) :: joinOn rest B := by
        simp [joinOn, List.filterMap_cons, h]
      rw [h2, List.map_cons, List.map_cons]
      exact (ih).cons₂ _

theorem joinOn_nodup {A : Frame} (B : Frame) (hA : (A.map Prod.fst).Nodup) :
    (joinOn A B).Nodup :=
  List.Nodup.of_map Prod.fst (((joinOn_keys_sublist A B)).nodup hA)

theorem filterFinite_keys_sublist (A : OFrame) :
    ((filterFinite A).map Prod.fst).Sublist (A.map Prod.fst) := by
  have h1 : (filterFinite A).map Prod.fst
      = (A.filter (fun tr => tr.2.allFinite)).map Prod.fst := by
    simp [filterFinite, List.map_map]
  rw [h1]
  exact (List.filter_sublist A).map Prod.fst

theorem filterFinite_nodup_keys {A : OFrame} (hA : (A.map Prod.fst).Nodup) :
    ((filterFinite A).map Prod.fst).Nodup :=
  (filterFinite_keys_sublist A).nodup hA

/-- Under unique timestamps, joining a frame with itself pairs every row with
itself. -/
theorem joinOn_self {A : Frame} (hA : (A.map Prod.fst).Nodup) :
    joinOn A A = A.map (fun tr => (tr.1, tr.2, tr.2)) := by
  have hlook : ∀ tr ∈ A, lookupRow tr.1 A = some tr.2 := by
    intro tr htr
    exact (lookupRow_eq_some_iff hA).mpr htr
  have h1 : joinOn A A
      = A.filterMap (some ∘ (fun tr => (tr.1, tr.2, tr.2))) := by
    apply List.filterMap_congr
    intro tr htr
    rw [hlook tr htr]
    rfl
  rw [h1, List.filterMap_eq_map]

/- ### Pearson correlation -/

/-- n times the variance sum of a sample, scaled to stay in the rationals:
n * sum of squares minus square of the sum.  This vanishes exactly when the
sample variance vanishes. -/
def varN (xs : List ℚ) : ℚ :=
  (xs.length : ℚ) * (xs.map (fun x => x * x)).sum - xs.sum * xs.sum

/-- The matching scaled covariance of a paired sample. -/
def covN (l : List (ℚ × ℚ)) : ℚ :=
  (l.length : ℚ) * (l.map (fun p => p.1 * p.2)).sum
    - (l.map Prod.fst).sum * (l.map Prod.snd).sum

/-- The Pearson correlation of a paired sample as computed by np.corrcoef:
covariance over the product of the standard deviations.  When either column
has zero variance the float computation divides zero by zero, yielding NaN;
that undefined outcome is the none case. -/
noncomputable def pearson (l : List (ℚ × ℚ)) : Option ℝ :=
  if varN (l.map Prod.fst) * varN (l.map Prod.snd) = 0 then none
  else some (((covN l : ℚ) : ℝ)
    / Real.sqrt ((varN (l.map Prod.fst) * varN (l.map Prod.snd) : ℚ) : ℝ))

/-- Python round(x, 3) on the real result of the correlation. -/
noncomputable def round3R (x : ℝ) : ℝ := ((⌊x * 1000 + 1 / 2⌋ : ℤ) : ℝ) / 1000

/-- One cell of a correlation matrix: both frames are filtered to finite
rows, inner-joined on time, the requested column pair is extracted, Pearson
correlation is taken and rounded to 3 decimals (NaN staying NaN). -/
noncomputable def corrCell (c : Col) (A B : OFrame) : Option ℝ :=
  (pearson (colPairs c (joinOn (filterFinite A) (filterFinite B)))).map round3R

/-- The full N by N correlation matrix computed from source column c, rooms
in selection order on both axes. -/
noncomputable def corrMatrixOf (c : Col) (rooms : List (String × OFrame)) :
    List (List (Option ℝ)) :=
  rooms.map (fun a => rooms.map (fun b => corrCell c a.2 b.2))

/-- The source column that actually feeds the raw-correlation matrix
displayed under each channel label in run().  The assignments at lines
333 to 340 of app.py rotate three channels: the list labelled c2h4 is
filled from the o2 columns, the list labelled o2 from the temp columns and
the list labelled temp from the c2h4 columns. -/
def rawCorrSource : Channel → Col
  | .co2 => .co2
  | .c2h4 => .o2
  | .o2 => .temp
  | .temp => .c2h4

/-- Source column feeding each labelled delta-correlation matrix; the same
rotation as the raw matrices (lines 343 to 350 of app.py). -/
def deltaCorrSource : Channel → Col
  | .co2 => .co2d
  | .c2h4 => .o2d
  | .o2 => .tempd
  | .temp => .c2h4d

/-- The raw-correlation matrix displayed under a channel label. -/
noncomputable def rawCorrMatrix (ch : Channel) (rooms : List (String × OFrame)) :
    List (List (Option ℝ)) :=
  corrMatrixOf (rawCorrSource ch) rooms

/-- The delta-correlation matrix displayed under a channel label. -/
noncomputable def deltaCorrMatrix (ch : Channel) (rooms : List (String × OFrame)) :
    List (List (Option ℝ)) :=
  corrMatrixOf (deltaCorrSource ch) rooms

/-- Cell access in a matrix represented as a list of rows. -/
def cellAt {α : Type} (M : List (List α)) (i j : ℕ) : Option α :=
  M[i]?.bind (fun row => row[j]?)

/- ### Variance lemmas -/

theorem sumsq_nonneg (xs : List ℚ) : 0 ≤ (xs.map (fun x => x * x)).sum := by
  induction xs with
  | nil => simp
  | cons a xs ih =>
    simp only [List.map_cons, List.sum_cons]
    nlinarith [mul_self_nonneg a]

theorem sq_sum_le_card_mul_sumsq (xs : List ℚ) :
    xs.sum * xs.sum ≤ (xs.length : ℚ) * (xs.map (fun x => x * x)).sum := by
  induction xs with
  | nil => simp
  | cons a xs ih =>
    have hn : (0 : ℚ) ≤ (xs.length : ℚ) := by positivity
    have hq : (0 : ℚ) ≤ (xs.map (fun x => x * x)).sum := sumsq_nonneg xs
    simp only [List.sum_cons, List.length_cons, List.map_cons]
    push_cast
    rcases eq_or_lt_of_le hn with h0 | hpos
    · have hs : xs.sum * xs.sum ≤ 0 := by
        rw [← h0] at ih
        simpa using ih
      have hs0 : xs.sum = 0 := by nlinarith [mul_self_nonneg xs.sum]
      rw [← h0, hs0]
      nlinarith [mul_self_nonneg a, hq]
    · have key : (xs.length : ℚ) *
          (((xs.length : ℚ) + 1) * (a * a + (xs.map (fun x => x * x)).sum)
            - (a + xs.sum) * (a + xs.sum))
          = ((xs.length : ℚ) * a - xs.sum) ^ 2
            + ((xs.length : ℚ) + 1)
              * ((xs.length : ℚ) * (xs.map (fun x => x * x)).sum - xs.sum * xs.sum) := by
        ring

      nlinarith [sq_nonneg ((xs.length : ℚ) * a - xs.sum), ih, hq, hpos, key]

theorem varN_nonneg (xs : List ℚ) : 0 ≤ varN xs := by
  have h := sq_sum_le_card_mul_sumsq xs
  simp only [varN]
  linarith

/- ### Pearson invariance lemmas -/

theorem pearson_congr_perm {l₁ l₂ : List (ℚ × ℚ)} (h : l₁.Perm l₂) :
    pearson l₁ = pearson l₂ := by
  have hlen := h.length_eq
  have hfst : (l₁.map Prod.fst).sum = (l₂.map Prod.fst).sum :=
    (h.map Prod.fst).sum_eq
  have hsnd : (l₁.map Prod.snd).sum = (l₂.map Prod.snd).sum :=
    (h.map Prod.snd).sum_eq
  have hmul : (l₁.map (fun p => p.1 * p.2)).sum = (l₂.map (fun p => p.1 * p.2)).sum :=
    (h.map (fun p => p.1 * p.2)).sum_eq
  have hsq1 : ((l₁.map Prod.fst).map (fun x => x * x)).sum
      = ((l₂.map Prod.fst).map (fun x => x * x)).sum :=
    ((h.map Prod.fst).map (fun x => x * x)).sum_eq
  have hsq2 : ((l₁.map Prod.snd).map (fun x => x * x)).sum
      = ((l₂.map Prod.snd).map (fun x => x * x)).sum :=
    ((h.map Prod.snd).map (fun x => x * x)).sum_eq
  have hlf : (l₁.map Prod.fst).length = (l₂.map Prod.fst).length := by
    simp [hlen]
  have hv1 : varN (l₁.map Prod.fst) = varN (l₂.map Prod.fst) := by
    simp only [varN, hfst, hsq1, hlf]
  have hv2 : varN (l₁.map Prod.snd) = varN (l₂.map Prod.snd) := by
    simp only [varN, hsnd, hsq2, List.length_map, hlen]
  have hc : covN l₁ = covN l₂ := by
    simp only [covN, hlen, hfst, hsnd, hmul]
  simp only [pearson, hv1, hv2, hc]

theorem pearson_swap (l : List (ℚ × ℚ)) :
    pearson (l.map Prod.swap) = pearson l := by
  have hfst : (l.map Prod.swap).map Prod.fst = l.map Prod.snd := by
    simp [List.map_map, Function.comp]
  have hsnd : (l.map Prod.swap).map Prod.snd = l.map Prod.fst := by
    simp [List.map_map, Function.comp]
  have hmul : (l.map Prod.swap).map (fun p => p.1 * p.2)
      = l.map (fun p => p.2 * p.1) := by
    simp [List.map_map, Function.comp]
  have hmul2 : (l.map (fun p : ℚ × ℚ => p.2 * p.1)).sum
      = (l.map (fun p : ℚ × ℚ => p.1 * p.2)).sum := by
    congr 1
    apply List.map_congr_left
    intro p _
    exact mul_comm _ _
  have hcov : covN (l.map Prod.swap) = covN l := by
    simp only [covN, hfst, hsnd, hmul, hmul2, List.length_map]
    ring
  simp only [pearson, hfst, hsnd, hcov]
  rw [mul_comm (varN (l.map Prod.snd)) (varN (l.map Prod.fst))]

theorem map_fst_dup (xs : List ℚ) :
    (xs.map (fun v => (v, v))).map Prod.fst = xs := by
  induction xs with
  | nil => rfl
  | cons a xs ih => simp_all

theorem map_snd_dup (xs : List ℚ) :
    (xs.map (fun v => (v, v))).map Prod.snd = xs := by
  induction xs with
  | nil => rfl
  | cons a xs ih => simp_all

/-- Pearson correlation of a column against itself is one whenever its
variance is nonzero. -/
theorem pearson_dup {xs : List ℚ} (h : varN xs ≠ 0) :
    pearson (xs.map (fun v => (v, v))) = some 1 := by
  have hfst := map_fst_dup xs
  have hsnd := map_snd_dup xs
  have hmul : (xs.map (fun v => (v, v))).map (fun p => p.1 * p.2)
      = xs.map (fun x => x * x) := by
    simp [List.map_map, Function.comp]
  have hcov : covN (xs.map (fun v => (v, v))) = varN xs := by
    simp only [covN, varN, hfst, hsnd, hmul, List.length_map]
  have hpos : (0 : ℚ) < varN xs := lt_of_le_of_ne (varN_nonneg xs) (Ne.symm h)
  have hposR : (0 : ℝ) < ((varN xs : ℚ) : ℝ) := by exact_mod_cast hpos
  have hne : varN xs * varN xs ≠ 0 := mul_ne_zero h h
  simp only [pearson, hfst, hsnd, hcov, if_neg hne]
  congr 1
  push_cast
  rw [Real.sqrt_mul_self (le_of_lt hposR)]
  field_simp

theorem round3R_one : round3R 1 = 1 := by
  have h1 : ((1 : ℝ) * 1000 + 1 / 2) = 2001 / 2 := by norm_num
  have h2 : ⌊(2001 : ℝ) / 2⌋ = 1000 := by
    apply Int.floor_eq_iff.mpr
    norm_num
  rw [round3R, h1, h2]
  norm_num

/- ### Symmetry of the join -/

/-- Swap the two sides of a joined row. -/
def swap23 (x : ℕ × Row × Row) : ℕ × Row × Row := (x.1, x.2.2, x.2.1)

theorem swap23_injective : Function.Injective swap23 := by
  intro x y hxy
  obtain ⟨t, ra, rb⟩ := x
  obtain ⟨u, sa, sb⟩ := y
  simp only [swap23, Prod.mk.injEq] at hxy
  simp [hxy.1, hxy.2.1, hxy.2.2]

/-- Under unique timestamps on both sides, joining B with A gives exactly the
rows of joining A with B with the two sides swapped, up to order. -/
theorem joinOn_comm_perm {A B : Frame} (hA : (A.map Prod.fst).Nodup)
    (hB : (B.map Prod.fst).Nodup) :
    (joinOn A B).Perm ((joinOn B A).map swap23) := by
  apply (List.perm_ext_iff_of_nodup (joinOn_nodup B hA)
    (List.Nodup.map swap23_injective (joinOn_nodup A hB))).mpr
  intro x
  obtain ⟨t, ra, rb⟩ := x
  rw [mem_joinOn_iff hB]
  constructor
  · rintro ⟨h1, h2⟩
    refine List.mem_map.mpr ⟨(t, rb, ra), ?_, rfl⟩
    exact (mem_joinOn_iff hA).mpr ⟨h2, h1⟩
  · intro h
    obtain ⟨y, hy, hxy⟩ := List.mem_map.mp h
    obtain ⟨u, sa, sb⟩ := y
    simp only [swap23, Prod.mk.injEq] at hxy
    obtain ⟨h1, h2, h3⟩ := hxy
    subst h1; subst h2; subst h3
    have hm := (mem_joinOn_iff hA).mp hy
    exact ⟨hm.2, hm.1⟩

theorem colPairs_map_swap23 (c : Col) (J : List (ℕ × Row × Row)) :
    colPairs c (J.map swap23) = (colPairs c J).map Prod.swap := by
  simp only [colPairs, List.map_map]
  rfl

/-- One correlation cell is symmetric in its two rooms (Pearson correlation
is symmetric and the joined frames agree up to order and side swap). -/
theorem corrCell_symm (c : Col) {A B : OFrame}
    (hA : (A.map Prod.fst).Nodup) (hB : (B.map Prod.fst).Nodup) :
    corrCell c A B = corrCell c B A := by
  unfold corrCell
  congr 1
  have hperm := joinOn_comm_perm (filterFinite_nodup_keys hA)
    (filterFinite_nodup_keys hB)
  calc pearson (colPairs c (joinOn (filterFinite A) (filterFinite B)))
      = pearson (colPairs c ((joinOn (filterFinite B) (filterFinite A)).map swap23)) :=
        pearson_congr_perm (hperm.map _)
    _ = pearson ((colPairs c (joinOn (filterFinite B) (filterFinite A))).map Prod.swap) := by
        rw [colPairs_map_swap23]
    _ = pearson (colPairs c (joinOn (filterFinite B) (filterFinite A))) :=
        pearson_swap _

theorem mem_of_getElemOpt {α : Type} {l : List α} {i : ℕ} {a : α}
    (h : l[i]? = some a) : a ∈ l := by
  obtain ⟨hlt, rfl⟩ := List.getElem?_eq_some.mp h
  exact List.getElem_mem _

theorem corrMatrixOf_symm (c : Col) (rooms : List (String × OFrame))
    (hN : ∀ r ∈ rooms, ((r.2).map Prod.fst).Nodup) (i j : ℕ) :
    cellAt (corrMatrixOf c rooms) i j = cellAt (corrMatrixOf c rooms) j i := by
  unfold corrMatrixOf cellAt
  rw [List.getElem?_map, List.getElem?_map]
  cases hi : rooms[i]? with
  | none =>
    cases hj : rooms[j]? with
    | none => rfl
    | some b => simp [List.getElem?_map, hi, hj]
  | some a =>
    cases hj : rooms[j]? with
    | none => simp [List.getElem?_map, hi, hj]
    | some b =>
      have ha : a ∈ rooms := mem_of_getElemOpt hi
      have hb : b ∈ rooms := mem_of_getElemOpt hj
      simp only [Option.map_some', Option.some_bind, List.getElem?_map, hi, hj]
      rw [corrCell_symm c (hN a ha) (hN b hb)]

/- ### Granger independence -/

/-- The entry guard of statsmodels grangercausalitytests: with the default
additive constant it refuses to run when the number of observations is at
most 3 times the maximum lag plus one, raising ValueError. -/
def grangerInsufficient (nobs maxlag : ℕ) : Bool := nobs ≤ 3 * maxlag + 1

/-- The p-values produced by the library are treated as an oracle: given the
two-column data, a lag and the index of one of the four reported sub-tests
(ssr F, ssr chi2, likelihood ratio, parameter F), it returns that sub-test's
p-value.  Every theorem below holds for every oracle, so nothing depends on
the actual regression output. -/
abbrev PvalOracle := List (ℚ × ℚ) → ℕ → ℕ → ℚ

/-- One independence-likelihood cell: the four sub-test p-values at the given
lag (each replaced by the 0.0 sentinel when the pair is a self comparison)
are averaged and rounded to 3 decimals. -/
def indepCell (O : PvalOracle) (self : Bool) (c : Col) (lag : ℕ)
    (A B : OFrame) : ℚ :=
  let data := colPairs c (joinOn (filterFinite A) (filterFinite B))
  let ps := (List.range 4).map (fun t => if self then 0 else O data lag t)
  round3Q (ps.sum / (ps.length : ℚ))

/-- The N by N independence matrix for a source column and lag; a pair is a
self comparison exactly when the two room names coincide, as in the source
comparison of iteration and comparison room names. -/
def indepMatrix (O : PvalOracle) (c : Col) (lag : ℕ)
    (rooms : List (String × OFrame)) : List (List ℚ) :=
  rooms.map (fun a => rooms.map (fun b => indepCell O (a.1 == b.1) c lag a.2 b.2))

/-- Did every ordered pair of rooms pass the grangercausalitytests entry
guard for maxlag 2?  The eight calls per pair all read the same joined frame
so they share one row count. -/
def grangerAllOk (rooms : List (String × OFrame)) : Bool :=
  rooms.all (fun a => rooms.all (fun b =>
    !(grangerInsufficient (joinOn (filterFinite a.2) (filterFinite b.2)).length 2)))

/-- The independence stage of run(): the nested pair loop raises out of the
whole comparison as soon as one pair is too small for the requested lags;
otherwise it produces, for each source column and lag, the full matrix. -/
def runGranger (O : PvalOracle) (rooms : List (String × OFrame)) :
    Except Unit (Col → ℕ → List (List ℚ)) :=
  if grangerAllOk rooms then .ok (fun c lag => indepMatrix O c lag rooms)
  else .error ()

/-- Outcome of pressing Compare. -/
inductive CompareOutcome
  | warned
  | ran (result : Except Unit (Col → ℕ → List (List ℚ)))

/-- The Compare button handler: fewer than two selected rooms yields only a
warning; otherwise the comparison pipeline runs. -/
def compareRooms (O : PvalOracle) (rooms : List (String × OFrame)) :
    CompareOutcome :=
  if rooms.length < 2 then .warned else .ran (runGranger O rooms)

/-- Helper shared by the insufficiency theorems: one ordered pair whose
joined filtered frame fits at most 7 rows forces the error outcome. -/
theorem runGranger_error_of_small_pair (O : PvalOracle)
    {rooms : List (String × OFrame)} {a b : String × OFrame}
    (ha : a ∈ rooms) (hb : b ∈ rooms)
    (hsmall : (joinOn (filterFinite a.2) (filterFinite b.2)).length ≤ 7) :
    runGranger O rooms = .error () := by
  have hok : grangerAllOk rooms = false := by
    rw [grangerAllOk]
    by_contra h
    have htrue : rooms.all (fun a => rooms.all (fun b =>
        !(grangerInsufficient (joinOn (filterFinite a.2) (filterFinite b.2)).length 2)))
        = true := by
      cases h2 : rooms.all (fun a => rooms.all (fun b =>
          !(grangerInsufficient (joinOn (filterFinite a.2) (filterFinite b.2)).length 2))) with
      | true => rfl
      | false => exact absurd h2 h
    have h3 := List.all_eq_true.mp htrue a ha
    have h4 := List.all_eq_true.mp h3 b hb
    rw [Bool.not_eq_true'] at h4
    rw [grangerInsufficient] at h4
    simp only [decide_eq_false_iff_not, not_le] at h4
    omega
  rw [runGranger, hok]
  rfl

/- ### Concrete frames used to instantiate the theorems -/

/-- A fully finite demo row whose o2 value varies with the bucket index while
the c2h4 value stays at 5. -/
def demoRow (q : ℚ) : ORow :=
  ⟨some 1, some q, some 1, some 5, some 1, some 1, some 1, some 1⟩

/-- A four-bucket room frame. -/
def demoA : OFrame := [(0, demoRow 0), (1, demoRow 1), (2, demoRow 2), (3, demoRow 3)]

/-- Two selected rooms with identical sensor histories. -/
def demoRooms1 : List (String × OFrame) := [("A", demoA), ("B", demoA)]

/-- A two-bucket room frame, too small for a lag-2 Granger regression. -/
def demoSmallA : OFrame := [(0, demoRow 0), (1, demoRow 1)]

/-- Two rooms whose joined frame has only 2 rows. -/
def demoSmallRooms : List (String × OFrame) := [("A", demoSmallA), ("B", demoSmallA)]

/-- An eight-bucket room frame, large enough for the lag-2 entry guard. -/
def demoBigA : OFrame :=
  [(0, demoRow 0), (1, demoRow 1), (2, demoRow 2), (3, demoRow 3),
   (4, demoRow 4), (5, demoRow 5), (6, demoRow 6), (7, demoRow 7)]

/-- Two rooms with eight common buckets. -/
def demoBigRooms : List (String × OFrame) := [("A", demoBigA), ("B", demoBigA)]

/-- A fixed p-value oracle for witnesses. -/
def demoOracle : PvalOracle := fun _ _ _ => 1 / 2

theorem demo_colPairs_o2 :
    colPairs Col.o2 (joinOn (filterFinite demoA) (filterFinite demoA))
      = (([0, 1, 2, 3] : List ℚ)).map (fun v => (v, v)) := rfl

theorem demo_colPairs_c2h4 :
    colPairs Col.c2h4 (joinOn (filterFinite demoA) (filterFinite demoA))
      = [((5 : ℚ), (5 : ℚ)), (5, 5), (5, 5), (5, 5)] := rfl

theorem varN_demo_o2 : varN ([0, 1, 2, 3] : List ℚ) ≠ 0 := by
  norm_num [varN]

theorem varN_demo_c2h4 : varN ([5, 5, 5, 5] : List ℚ) = 0 := by
  norm_num [varN]

theorem colPairs_map_dup (c : Col) (F : Frame) :
    colPairs c (F.map (fun tr => (tr.1, tr.2, tr.2)))
      = (F.map (fun tr => tr.2.get c)).map (fun v => (v, v)) := by
  induction F with
  | nil => rfl
  | cons a F ih => simp_all [colPairs]

theorem pearson_none_of_zero_var {l : List (ℚ × ℚ)}
    (h : varN (l.map Prod.fst) * varN (l.map Prod.snd) = 0) :
    pearson l = none := by
  unfold pearson
  rw [if_pos h]

/- ### C1 -/

/-- C1: the raw-correlation matrix displayed under a channel label is NOT in
general computed from that channel.  On two rooms whose o2 columns are the
identical nonconstant series 0,1,2,3 and whose c2h4 columns are constant,
the (0,1) cell of the matrix labelled c2h4 is 1 (the Pearson correlation of
the o2 columns), while the Pearson correlation of the c2h4 columns
themselves is undefined; the source column of the c2h4-labelled matrix is
o2, and likewise for the delta matrices. -/
theorem corr_channel_mislabelled :
    cellAt (rawCorrMatrix Channel.c2h4 demoRooms1) 0 1 = some (some 1) ∧
    pearson (colPairs Col.c2h4
      (joinOn (filterFinite demoA) (filterFinite demoA))) = none ∧
    rawCorrSource Channel.c2h4 = Col.o2 ∧
    deltaCorrSource Channel.c2h4 = Col.o2d := by
  refine ⟨?_, ?_, rfl, rfl⟩
  · show cellAt (corrMatrixOf Col.o2 demoRooms1) 0 1 = some (some 1)
    unfold corrMatrixOf cellAt
    show some (corrCell Col.o2 demoA demoA) = some (some 1)
    unfold corrCell
    rw [demo_colPairs_o2, pearson_dup varN_demo_o2]
    simp [round3R_one]
  · apply pearson_none_of_zero_var
    rw [demo_colPairs_c2h4]
    simp only [List.map_cons, List.map_nil]
    rw [varN_demo_c2h4]
    ring

/- ### C4 -/

/-- C4: for every pair of indices and every channel label, the raw and the
delta correlation matrices are symmetric, provided each selected room frame
has unique bucket timestamps (as group_by_dynamic guarantees). -/
theorem corr_matrices_symmetric (ch : Channel) (rooms : List (String × OFrame))
    (hN : ∀ r ∈ rooms, ((r.2).map Prod.fst).Nodup) (i j : ℕ) :
    cellAt (rawCorrMatrix ch rooms) i j = cellAt (rawCorrMatrix ch rooms) j i ∧
    cellAt (deltaCorrMatrix ch rooms) i j = cellAt (deltaCorrMatrix ch rooms) j i :=
  ⟨corrMatrixOf_symm _ rooms hN i j, corrMatrixOf_symm _ rooms hN i j⟩

theorem corr_matrices_symmetric_witness :
    cellAt (rawCorrMatrix Channel.co2 demoRooms1) 0 1
      = cellAt (rawCorrMatrix Channel.co2 demoRooms1) 1 0 ∧
    cellAt (deltaCorrMatrix Channel.co2 demoRooms1) 0 1
      = cellAt (deltaCorrMatrix Channel.co2 demoRooms1) 1 0 :=
  corr_matrices_symmetric Channel.co2 demoRooms1 (by decide) 0 1

/- ### C5 -/

/-- C5: the diagonal cell of a raw-correlation matrix is exactly 1 whenever
the room's joined self-pair frame has nonzero variance in the column the
matrix is computed from and the room's bucket timestamps are unique. -/
theorem raw_corr_diagonal_one (c : Col) (h0 : c.isRaw = true)
    (rooms : List (String × OFrame)) (i : ℕ) (a : String × OFrame)
    (hi : rooms[i]? = some a)
    (hA : ((a.2).map Prod.fst).Nodup)
    (hvar : varN ((colPairs c
      (joinOn (filterFinite a.2) (filterFinite a.2))).map Prod.fst) ≠ 0) :
    cellAt (corrMatrixOf c rooms) i i = some (some 1) := by
  unfold corrMatrixOf cellAt
  rw [List.getElem?_map, hi]
  simp only [Option.map_some', Option.some_bind, List.getElem?_map, hi]
  have hself : joinOn (filterFinite a.2) (filterFinite a.2)
      = (filterFinite a.2).map (fun tr => (tr.1, tr.2, tr.2)) :=
    joinOn_self (filterFinite_nodup_keys hA)
  have hcp : colPairs c (joinOn (filterFinite a.2) (filterFinite a.2))
      = ((filterFinite a.2).map (fun tr => tr.2.get c)).map (fun v => (v, v)) := by
    rw [hself, colPairs_map_dup]
  rw [hcp, map_fst_dup] at hvar
  have hcell : corrCell c a.2 a.2 = some 1 := by
    unfold corrCell
    rw [hcp, pearson_dup hvar]
    simp [round3R_one]
  rw [hcell]

theorem raw_corr_diagonal_one_witness :
    cellAt (corrMatrixOf Col.o2 demoRooms1) 0 0 = some (some 1) :=
  raw_corr_diagonal_one Col.o2 (by decide) demoRooms1 0 ("A", demoA)
    rfl (by decide)
    (by
      show varN ((colPairs Col.o2
        (joinOn (filterFinite demoA) (filterFinite demoA))).map Prod.fst) ≠ 0
      rw [demo_colPairs_o2, map_fst_dup]
      exact varN_demo_o2)

/- ### C6 -/

/-- C6: when either side of the column a correlation matrix is computed from
has zero variance over the joined frame of a pair, that pair's cell is the
undefined (NaN) value, not any number. -/
theorem corr_zero_variance_undefined (c : Col) (rooms : List (String × OFrame))
    (i j : ℕ) (a b : String × OFrame)
    (hi : rooms[i]? = some a) (hj : rooms[j]? = some b)
    (hvar : varN ((colPairs c
        (joinOn (filterFinite a.2) (filterFinite b.2))).map Prod.fst) = 0
      ∨ varN ((colPairs c
        (joinOn (filterFinite a.2) (filterFinite b.2))).map Prod.snd) = 0) :
    cellAt (corrMatrixOf c rooms) i j = some none := by
  unfold corrMatrixOf cellAt
  rw [List.getElem?_map, hi]
  simp only [Option.map_some', Option.some_bind, List.getElem?_map, hj]
  have hcell : corrCell c a.2 b.2 = none := by
    unfold corrCell
    rw [pearson_none_of_zero_var (mul_eq_zero.mpr hvar)]
    rfl
  rw [hcell]

theorem corr_zero_variance_undefined_witness :
    cellAt (corrMatrixOf Col.c2h4 demoRooms1) 0 1 = some none :=
  corr_zero_variance_undefined Col.c2h4 demoRooms1 0 1 ("A", demoA) ("B", demoA)
    rfl rfl
    (Or.inl (by
      show varN ((colPairs Col.c2h4
        (joinOn (filterFinite demoA) (filterFinite demoA))).map Prod.fst) = 0
      rw [demo_colPairs_c2h4]
      simp only [List.map_cons, List.map_nil]
      exact varN_demo_c2h4))

/- ### C3 -/

theorem indepCell_self_zero (O : PvalOracle) (c : Col) (lag : ℕ) (A B : OFrame) :
    indepCell O true c lag A B = 0 := by
  unfold indepCell
  simp [round3Q_zero]

/-- C3: whenever the comparison pipeline succeeds, every independence
matrix at both lag depths holds exactly 0 in every diagonal cell, whatever
p-values the Granger battery would report: the sentinel replaces each
sub-test p-value for self comparisons. -/
theorem indep_diagonal_zero (O : PvalOracle) (rooms : List (String × OFrame))
    (M : Col → ℕ → List (List ℚ)) (h : runGranger O rooms = .ok M)
    (i : ℕ) (hi : i < rooms.length) (c : Col) (lag : ℕ) :
    cellAt (M c lag) i i = some 0 := by
  unfold runGranger at h
  by_cases hok : grangerAllOk rooms = true
  · rw [if_pos hok] at h
    injection h with hM
    rw [← hM]
    unfold indepMatrix cellAt
    have hi2 : rooms[i]? = some rooms[i] := List.getElem?_eq_getElem hi
    rw [List.getElem?_map, hi2]
    simp only [Option.map_some', Option.some_bind, List.getElem?_map, hi2]
    rw [beq_self_eq_true]
    rw [indepCell_self_zero]
  · rw [if_neg hok] at h
    cases h

theorem indep_diagonal_zero_witness :
    cellAt ((fun c lag => indepMatrix demoOracle c lag demoBigRooms) Col.co2 1) 0 0
      = some 0 :=
  indep_diagonal_zero demoOracle demoBigRooms
    (fun c lag => indepMatrix demoOracle c lag demoBigRooms)
    (by unfold runGranger; rw [if_pos (by decide)]) 0 (by decide) Col.co2 1

/- ### C2 -/

/-- C2 counterexample: two rooms whose joined filtered frame has only two
rows make the independence stage raise out of the whole run; no sentinel
cell is emitted and no matrices are produced. -/
theorem granger_small_frame_raises :
    runGranger demoOracle demoSmallRooms = .error () := by
  unfold runGranger
  rw [if_neg (by decide)]

/-- C2 amended: when any ordered pair of rooms has a joined filtered frame
of at most 7 rows (too small for the requested maxlag 2), the Granger call
raises and the whole comparison run aborts with an error; matrix assembly
does not complete for the other pairs. -/
theorem granger_insufficient_data_aborts (O : PvalOracle)
    (rooms : List (String × OFrame)) (a b : String × OFrame)
    (ha : a ∈ rooms) (hb : b ∈ rooms)
    (hsmall : (joinOn (filterFinite a.2) (filterFinite b.2)).length ≤ 7) :
    runGranger O rooms = .error () :=
  runGranger_error_of_small_pair O ha hb hsmall

/-- A mixed selection: one room with ample data, one with only two rows. -/
def demoMixedRooms : List (String × OFrame) := [("A", demoSmallA), ("B", demoBigA)]

theorem granger_insufficient_data_aborts_witness :
    runGranger demoOracle demoMixedRooms = .error () :=
  granger_insufficient_data_aborts demoOracle demoMixedRooms
    ("A", demoSmallA) ("B", demoBigA)
    (List.mem_cons_self _ _)
    (List.mem_cons_of_mem _ (List.mem_cons_self _ _))
    (by decide)

/- ### C9 -/

/-- C9: the Granger tests are still invoked for self-pairs, before the 0.0
sentinel is substituted: a self-pair whose joined frame fails the entry
guard makes the whole comparison run abort rather than being bypassed by
the sentinel. -/
theorem granger_self_pair_not_bypassed (O : PvalOracle)
    (rooms : List (String × OFrame)) (a : String × OFrame)
    (ha : a ∈ rooms)
    (hsmall : (joinOn (filterFinite a.2) (filterFinite a.2)).length ≤ 7) :
    runGranger O rooms = .error () :=
  runGranger_error_of_small_pair O ha ha hsmall

theorem granger_self_pair_not_bypassed_witness :
    runGranger demoOracle demoSmallRooms = .error () :=
  granger_self_pair_not_bypassed demoOracle demoSmallRooms ("A", demoSmallA)
    (List.mem_cons_self _ _) (by decide)

/- ### C10 -/

/-- C10: pressing Compare with fewer than two selected rooms only produces
the warning; the comparison pipeline is not run and no matrices are
produced. -/
theorem compare_requires_two_rooms (O : PvalOracle)
    (rooms : List (String × OFrame)) (h : rooms.length < 2) :
    compareRooms O rooms = .warned := by
  unfold compareRooms
  rw [if_pos h]

theorem compare_requires_two_rooms_witness :
    compareRooms demoOracle [("A", demoA)] = .warned :=
  compare_requires_two_rooms demoOracle [("A", demoA)] (by norm_num)

/- ### C7 -/

/-- C7: the delta column is the first difference of the bucketed channel
values with null propagation: its first entry is null, each later entry is
the rounded difference of the two successive bucket cells (null when either
operand is null), and on a constant non-null channel every delta is 0
except the first, which is null. -/
theorem delta_column_first_difference :
    (∀ (n : ℕ) (v : ℚ),
      deltaColumn (List.replicate (n + 1) (some v)) = none :: List.replicate n (some 0)) ∧
    (∀ (col : List (Option ℚ)) (i : ℕ), i + 1 < col.length →
      (deltaColumn col)[i + 1]? =
        some (Option.map round3Q (subOpt (col.getD (i + 1) none) (col.getD i none)))) := by
  constructor
  · intro n v
    have h1 : List.replicate (n + 1) (some v) = some v :: List.replicate n (some v) :=
      List.replicate_succ _ _
    rw [deltaColumn, h1]
    show (none :: List.zipWith subOpt (List.replicate n (some v))
      (some v :: List.replicate n (some v))).map (Option.map round3Q)
      = none :: List.replicate n (some 0)
    rw [zipWith_subOpt_const]
    simp [List.map_replicate, round3Q_zero]
  · intro col i hlen
    cases col with
    | nil => simp at hlen
    | cons x xs =>
      have hx : i < xs.length := by
        simpa using hlen
      have hgoal1 : (deltaColumn (x :: xs))[i + 1]? =
          ((List.zipWith subOpt xs (x :: xs)).map (Option.map round3Q))[i]? := by
        simp [deltaColumn, diffCol]
      rw [hgoal1, List.getElem?_map]
      have hzlen : i < (List.zipWith subOpt xs (x :: xs)).length := by
        simp [List.length_zipWith]
        omega
      have hzi : (List.zipWith subOpt xs (x :: xs))[i]? =
          some (subOpt xs[i] (x :: xs)[i]) := by
        rw [List.getElem?_eq_getElem hzlen, List.getElem_zipWith]
      rw [hzi]
      have h1 : (x :: xs).getD (i + 1) none = xs[i] := by
        rw [List.getD_cons_succ, List.getD_eq_getElem xs none hx]
      have h2 : (x :: xs).getD i none = (x :: xs)[i] := by
        rw [List.getD_eq_getElem (x :: xs) none (by simpa using Nat.lt_succ_of_lt hx)]
      rw [h1, h2]
      rfl

theorem delta_column_first_difference_witness :
    deltaColumn (List.replicate (2 + 1) (some (5 : ℚ)))
      = none :: List.replicate 2 (some 0) ∧
    (deltaColumn [some (1 : ℚ), some 3])[0 + 1]? =
      some (Option.map round3Q (subOpt (([some (1 : ℚ), some 3]).getD (0 + 1) none)
        (([some (1 : ℚ), some 3]).getD 0 none))) :=
  ⟨delta_column_first_difference.1 2 5,
   delta_column_first_difference.2 [some 1, some 3] 0 (by norm_num)⟩

/- ### C8 -/

/-- C8 counterexample: with no end override, no opened date and no raw end
date, the code fetches up to the current date, not the raw scoring start
date the claim prescribes: on raw start 3 and current date 99 the two
disagree. -/
theorem end_date_fallback_counterexample :
    effectiveEndDate none none none 99 = 99 ∧
    claimedEffectiveEndDate none none none 3 = 3 ∧ (99 : ℕ) ≠ 3 :=
  ⟨rfl, rfl, by norm_num⟩

/-- C8 amended: the effective end date follows the precedence explicit
override, then opened date, then raw scoring end, then the current UTC
date (not the raw scoring start); the effective start date is the override
when present, otherwise the raw scoring start. -/
theorem scoring_window_precedence :
    (∀ (e : ℕ) (op re : Option ℕ) (now : ℕ),
      effectiveEndDate (some e) op re now = e) ∧
    (∀ (o : ℕ) (re : Option ℕ) (now : ℕ),
      effectiveEndDate none (some o) re now = o) ∧
    (∀ (r now : ℕ), effectiveEndDate none none (some r) now = r) ∧
    (∀ now : ℕ, effectiveEndDate none none none now = now) ∧
    (∀ (s : ℕ) (raw : Option ℕ), effectiveStartDate (some s) raw = some s) ∧
    (∀ raw : Option ℕ, effectiveStartDate none raw = raw) :=
  ⟨fun _ _ _ _ => rfl, fun _ _ _ => rfl, fun _ _ => rfl, fun _ => rfl,
   fun _ _ => rfl, fun _ => rfl⟩
